import Mathlib

/-!
# Verification development for `imports.go`

The program walks a directory tree, parses the import section of the Go files of every
directory it recorded, and prints a map from (normalized) directory path to import list.

The embedding is shallow.  Go strings are `String`s (sequences of characters; the program
only searches for and trims ASCII text, for which bytes and characters agree), the Go map
`map[string][]string` is an association list with unique keys, and everything the program
reads from its surroundings (the file tree, the working directory, the environment, the
result of parsing a directory, the three marshal/format routines) is a field of `Env` or an
explicit argument.  The pure helpers of the Go standard library that the program calls
(`strings.Contains`, `strings.Trim`, `strings.TrimPrefix`, `strings.ToLower`,
`filepath.Clean`, `filepath.Join`, `filepath.Abs`, `filepath.Walk`) are written out after
their library sources, for Unix paths.
-/

namespace Imports

/-! ## Go standard library: `strings` -/

/-- Go: `strings.HasPrefix(s, prefix)`, that is
`len(s) >= len(prefix) && s[:len(prefix)] == prefix`. -/
def HasPrefix (s pre : String) : Bool :=
  decide (pre.data.length ≤ s.data.length) && (s.data.take pre.data.length == pre.data)

/-- Go: `strings.TrimPrefix(s, prefix)`: `s[len(prefix):]` when `HasPrefix`, else `s`. -/
def TrimPrefix (s pre : String) : String :=
  if HasPrefix s pre then ⟨s.data.drop pre.data.length⟩ else s

/-- The search loop of `strings.Index`: is `sub` a prefix of some suffix of `s`? -/
def containsAt (sub : List Char) : List Char → Bool
  | [] => sub.isPrefixOf []
  | c :: cs => sub.isPrefixOf (c :: cs) || containsAt sub cs

/-- Go: `strings.Contains(s, substr)`, that is `strings.Index(s, substr) >= 0`. -/
def Contains (s substr : String) : Bool :=
  containsAt substr.data s.data

/-- Go: `strings.TrimLeft(s, cutset)` on the characters of `s`. -/
def trimLeft (cutset : List Char) (s : List Char) : List Char :=
  s.dropWhile (fun c => cutset.contains c)

/-- Go: `strings.TrimRight(s, cutset)` on the characters of `s`. -/
def trimRight (cutset : List Char) (s : List Char) : List Char :=
  (s.reverse.dropWhile (fun c => cutset.contains c)).reverse

/-- Go: `strings.Trim(s, cutset)`: all leading and trailing characters contained in
`cutset` removed. -/
def Trim (s cutset : String) : String :=
  ⟨trimLeft cutset.data (trimRight cutset.data s.data)⟩

/-- Go: `unicode.ToLower` on one character.  The ASCII range is written out; the mapping of
the other characters comes from the Unicode tables, here the argument `table`. -/
def toLowerRune (table : Char → Char) (c : Char) : Char :=
  if c.toNat < 128 then
    (if 'A'.toNat ≤ c.toNat ∧ c.toNat ≤ 'Z'.toNat then Char.ofNat (c.toNat + 32) else c)
  else table c

/-- Go: `strings.ToLower(s)`, that is `strings.Map(unicode.ToLower, s)`. -/
def ToLower (table : Char → Char) (s : String) : String :=
  ⟨s.data.map (toLowerRune table)⟩

/-! ## Go standard library: `path/filepath` (Unix) -/

/-- The elements of a path: the pieces between separators (`/`). -/
def splitSep : List Char → List (List Char)
  | [] => [[]]
  | c :: cs =>
    if c = '/' then [] :: splitSep cs
    else
      match splitSep cs with
      | [] => [[c]]
      | h :: t => (c :: h) :: t

/-- One step of the element loop of `filepath.Clean`.  The state is the list of elements
written so far (last one first) and `dotdot`, the number of leading elements that a `..`
must not remove. -/
def cleanStep (rooted : Bool) (st : List (List Char) × Nat) (el : List Char) :
    List (List Char) × Nat :=
  if el = [] then st
  else if el = ['.'] then st
  else if el = ['.', '.'] then
    if st.2 < st.1.length then (st.1.tail, st.2)
    else if !rooted then (el :: st.1, st.1.length + 1)
    else st
  else (el :: st.1, st.2)

/-- Join elements with the separator. -/
def joinSep : List (List Char) → List Char
  | [] => []
  | [e] => e
  | e :: f :: rest => e ++ '/' :: joinSep (f :: rest)

/-- Go: `filepath.Clean(path)` on the characters of a Unix path. -/
def cleanChars (path : List Char) : List Char :=
  if path = [] then ['.']
  else
    let rooted := path.head? == some '/'
    let st := (splitSep path).foldl (cleanStep rooted) ([], 0)
    let body := joinSep st.1.reverse
    if rooted then '/' :: body
    else if body = [] then ['.'] else body

/-- Go: `filepath.Clean(path)`. -/
def Clean (path : String) : String := ⟨cleanChars path.data⟩

/-- Go: `filepath.Join(a, b)`: the non-empty leading elements joined with `/` and cleaned;
empty when both are empty. -/
def Join (a b : String) : String :=
  if a ≠ "" then Clean (a ++ "/" ++ b)
  else if b ≠ "" then Clean b
  else ""

/-- Go: `filepath.IsAbs(path)` on Unix: `strings.HasPrefix(path, "/")`. -/
def IsAbs (path : String) : Bool := HasPrefix path "/"

/-- Go: `filepath.Abs(path)` on Unix.  `getwd` is the result of `os.Getwd()`. -/
def Abs (getwd : Except String String) (path : String) : Except String String :=
  if IsAbs path then .ok (Clean path)
  else
    match getwd with
    | .error e => .error e
    | .ok wd => .ok (Join wd path)

/-- Go: `os.FileInfo`, of which the program only asks `IsDir()`. -/
structure FileInfo where
  isDir : Bool
  deriving DecidableEq, Repr

mutual
/-- What `os.Lstat` found at a path: something that is not a directory, a directory whose
names can be read, or a directory whose names cannot be read (`readDirNames` fails). -/
inductive FsNode where
  | file : FsNode
  | dir : FsChildren → FsNode
  | unreadable : String → FsNode
/-- The names in a directory, in the (sorted) order of `readDirNames`; for each name either
the node that `lstat` finds there or the error with which `lstat` fails. -/
inductive FsChildren where
  | nil : FsChildren
  | cons : String → FsNode → FsChildren → FsChildren
  | consMissing : String → String → FsChildren → FsChildren
end

/-- Go: `info.IsDir()` of the `FileInfo` that `lstat` returns for a node. -/
def FsNode.info : FsNode → FileInfo
  | .file => ⟨false⟩
  | .dir _ => ⟨true⟩
  | .unreadable _ => ⟨true⟩

/-- Go: the `error` a `filepath.WalkFunc` returns: `filepath.SkipDir` or another error.
(The callbacks below return neither `SkipAll` nor any other error.) -/
inductive WalkErr where
  | skipDir : WalkErr
  | other : String → WalkErr
  deriving DecidableEq, Repr

/-- Go: `err.Error()`. -/
def WalkErr.msg : WalkErr → String
  | .skipDir => "skip this directory"
  | .other e => e

/-- How a call ends that may panic: with a run-time panic, or by returning a state and an
optional error. -/
inductive Ret (σ ε : Type) where
  | panic : String → Ret σ ε
  | ret : σ → Option ε → Ret σ ε
  deriving DecidableEq, Repr

/-- Go: `filepath.WalkFunc`, `func(path string, info os.FileInfo, err error) error`, with
the variables it captures as explicit state. -/
abbrev WalkFunc (σ : Type) := σ → String → Option FileInfo → Option String → Ret σ WalkErr

mutual
/-- Go: `filepath.walk(path, info, walkFn)`, the recursive descent: a non-directory is
reported; a directory is reported together with the error of `readDirNames`, and when both
that error and the answer of `walkFn` are nil its names are walked. -/
def walk {σ : Type} (walkFn : WalkFunc σ) (path : String) : FsNode → σ → Ret σ WalkErr
  | .file, s => walkFn s path (some ⟨false⟩) none
  | .unreadable e, s => walkFn s path (some ⟨true⟩) (some e)
  | .dir names, s =>
    match walkFn s path (some ⟨true⟩) none with
    | .panic m => .panic m
    | .ret s1 (some err1) => .ret s1 (some err1)
    | .ret s1 none => walkNames walkFn path names s1
/-- Go: the loop `for _, name := range names` of `filepath.walk`. -/
def walkNames {σ : Type} (walkFn : WalkFunc σ) (path : String) : FsChildren → σ → Ret σ WalkErr
  | .nil, s => .ret s none
  | .consMissing name e rest, s =>
    match walkFn s (Join path name) none (some e) with
    | .panic m => .panic m
    | .ret s1 none => walkNames walkFn path rest s1
    | .ret s1 (some err) =>
      if err ≠ .skipDir then .ret s1 (some err) else walkNames walkFn path rest s1
  | .cons name node rest, s =>
    match walk walkFn (Join path name) node s with
    | .panic m => .panic m
    | .ret s1 none => walkNames walkFn path rest s1
    | .ret s1 (some err) =>
      if !node.info.isDir || err ≠ .skipDir then .ret s1 (some err)
      else walkNames walkFn path rest s1
end

/-- Go: `filepath.Walk(root, walkFn)`.  `lstat` is the result of `os.Lstat(root)`. -/
def Walk {σ : Type} (lstat : Except String FsNode) (root : String) (walkFn : WalkFunc σ)
    (s : σ) : Ret σ WalkErr :=
  let r :=
    match lstat with
    | .error e => walkFn s root none (some e)
    | .ok node => walk walkFn root node s
  match r with
  | .ret s1 (some .skipDir) => .ret s1 none
  | r => r

/-! ## Go standard library: what `go/parser` and `go/ast` deliver -/

/-- Go: `*ast.File` parsed with `parser.ImportsOnly`, as `ast.Inspect` traverses it: the
`Path.Value` token of each `*ast.ImportSpec`, in declaration order. -/
abbrev File := List String

/-- Go: `*ast.Package`: its files, in the order in which `ast.Inspect` ranges over them. -/
abbrev Package := List File

/-- Go: the two results of `parser.ParseDir`: the packages found (in the order in which the
program ranges over them) and the first error.  On an error the packages may be incomplete,
not absent. -/
structure ParseResult where
  pkgs : List Package
  first : Option String
  deriving DecidableEq, Repr

/-! ## The program -/

/-- Go: `map[string][]string`, as an association list with unique keys. -/
abbrev ImportMap := List (String × List String)

/-- Go: `imports[k] = v`. -/
def ImportMap.set (imports : ImportMap) (k : String) (v : List String) : ImportMap :=
  (k, v) :: imports.filter (fun e => e.1 != k)

/-- Go: `imports[k]` with its presence flag. -/
def ImportMap.get (imports : ImportMap) (k : String) : Option (List String) :=
  imports.lookup k

/-- The keys of the map. -/
def ImportMap.keys (imports : ImportMap) : List String := imports.map Prod.fst

/-- What the program reads from its surroundings. -/
structure Env where
  /-- Result of `os.Lstat` on the start directory, with the tree below it. -/
  lstat : Except String FsNode
  /-- Result of `os.Getwd()`. -/
  getwd : Except String String
  /-- Result of `os.Getenv("GOPATH")`. -/
  gopathVar : String
  /-- Value of `build.Default.GOPATH`. -/
  defaultGopath : String
  /-- Result of `parser.ParseDir(fs, dir, nil, parser.ImportsOnly)`. -/
  parseDir : String → ParseResult
  /-- The text written by the `text` case for a map: its entries in the order of the map
  iteration, each `fmt.Println(k, blue(v))`. -/
  text : ImportMap → String
  /-- Result of `json.MarshalIndent(imports, "", "    ")`. -/
  json : ImportMap → Except String String
  /-- Result of `yaml.Marshal(imports)`. -/
  yaml : ImportMap → Except String String
  /-- The Unicode lower-case mapping outside ASCII. -/
  lowerTable : Char → Char

/-- Lines 61-70: the `ast.Inspect` callback run over one file appends the trimmed
`Path.Value` of every import spec to `pkgImports`. -/
def inspectFile (pkgImports : List String) (file : File) : List String :=
  file.foldl (fun acc value => acc ++ [Trim value "\""]) pkgImports

/-- Lines 61-70: `ast.Inspect` over one package visits its files in turn. -/
def inspectPackage (pkgImports : List String) (node : Package) : List String :=
  node.foldl inspectFile pkgImports

/-- Lines 61-70: `for _, node := range nodes`. -/
def inspectNodes (pkgImports : List String) (nodes : List Package) : List String :=
  nodes.foldl inspectPackage pkgImports

/-- Lines 54-81: the loop of `getImports` over the remaining directories, with the
variables `imports` and `pkgImports` as arguments. -/
def getImportsLoop (env : Env) (gopath : String) :
    List String → ImportMap → List String → Except String ImportMap
  | [], imports, _ => .ok imports
  | dir :: rest, imports, pkgImports =>
    let r := env.parseDir dir
    match r.first with
    | some _ => getImportsLoop env gopath rest imports pkgImports
    | none =>
      let pkgImports := inspectNodes pkgImports r.pkgs
      if pkgImports.length > 0 then
        match Abs env.getwd dir with
        | .error err => .error ("getting full path: " ++ err)
        | .ok fullPath =>
          let fullPath := TrimPrefix fullPath gopath
          getImportsLoop env gopath rest (imports.set fullPath pkgImports) []
      else getImportsLoop env gopath rest imports []

/-- Go: `getImports(dirs, gopath)`.  An error result stands for `(nil, err)`. -/
def getImports (env : Env) (dirs : List String) (gopath : String) : Except String ImportMap :=
  getImportsLoop env gopath dirs [] []

/-- Go: `srcDir()`. -/
def srcDir (env : Env) : String :=
  let p := env.gopathVar
  let p := if p = "" then env.defaultGopath else p
  Join p "src" ++ "/"

/-- How `print` and `main` end: by returning after having written `stdout`, by
`log.Fatalf` with a message, or by a run-time panic. -/
inductive Exit where
  /-- Normal return; the argument is what was written to standard output. -/
  | done : String → Exit
  /-- Go: `log.Fatalf(context + ": %v", red(err))`; colouring is left out. -/
  | fatal : String → String → Exit
  | panic : String → Exit
  deriving DecidableEq, Repr

/-- Go: `print(imports, out)`. -/
def print (env : Env) (imports : ImportMap) (out : String) : Exit :=
  let sel := ToLower env.lowerTable out
  if sel = "text" then .done (env.text imports)
  else if sel = "json" then
    match env.json imports with
    | .error err => .fatal "error marshalling" err
    | .ok b => .done (b ++ "\n")
  else if sel = "yaml" then
    match env.yaml imports with
    | .error err => .fatal "error marshalling" err
    | .ok b => .done (b ++ "\n")
  else .done ""

/-- Lines 34-39: the function literal passed to `filepath.Walk`; the captured `dirs` is
the state.  With a nil `f` the call `f.IsDir()` panics. -/
def walkCallback : WalkFunc (List String) := fun dirs path f _err =>
  match f with
  | none => .panic "invalid memory address or nil pointer dereference"
  | some f =>
    if f.isDir && !Contains path "vendor" then .ret (dirs ++ [path]) none
    else .ret dirs none

/-- Lines 33-39: `dirs` after the walk, and the error `filepath.Walk` returned. -/
def walkDirs (env : Env) (dir : String) : Ret (List String) WalkErr :=
  Walk env.lstat dir walkCallback []

/-- Go: `main()`, with the parsed flags `-d` and `-o` as arguments. -/
def main (env : Env) (dir out : String) : Exit :=
  match walkDirs env dir with
  | .panic m => .panic m
  | .ret _ (some err) => .fatal "error walking directories" err.msg
  | .ret dirs none =>
    match getImports env dirs (srcDir env) with
    | .error _ => .done ""
    | .ok imports => if imports.length > 0 then print env imports out else .done ""

/-- The walk callback of a walk that skips every excluded subtree: as `walkCallback`, but an
excluded directory is answered with `filepath.SkipDir`. -/
def pruningCallback : WalkFunc (List String) := fun dirs path f _err =>
  match f with
  | none => .panic "invalid memory address or nil pointer dereference"
  | some f =>
    if f.isDir then
      (if Contains path "vendor" then .ret dirs (some .skipDir) else .ret (dirs ++ [path]) none)
    else .ret dirs none

/-! ## Specification-side notions -/

/-- The import path strings of a directory as the specification describes them: the path
tokens of its files, in file-iteration order then declaration order, each with its
enclosing double quotes trimmed. -/
def dirImports (env : Env) (dir : String) : List String :=
  (env.parseDir dir).pkgs.flatten.flatten.map (fun value => Trim value "\"")

/-- A directory contributes an entry: its parse reports no error and it has an import. -/
def contributes (env : Env) (dir : String) : Bool :=
  (env.parseDir dir).first.isNone && !(dirImports env dir).isEmpty

/-- The directory key: the absolute path with the root prefix trimmed; none when the
absolute path cannot be resolved. -/
def dirKey (env : Env) (gopath dir : String) : Option String :=
  match Abs env.getwd dir with
  | .error _ => none
  | .ok p => some (TrimPrefix p gopath)

/-- Does the directory contribute an entry under key `k`? -/
def hasKey (env : Env) (gopath k dir : String) : Bool :=
  contributes env dir && (dirKey env gopath dir == some k)

/-- The last directory of the list that contributes an entry under key `k`. -/
def lastWithKey (env : Env) (gopath k : String) (dirs : List String) : Option String :=
  dirs.reverse.find? (hasKey env gopath k)

mutual
/-- Every name in the tree can be examined: `lstat` fails nowhere. -/
def allStat : FsNode → Bool
  | .file => true
  | .unreadable _ => true
  | .dir names => allStatNames names
/-- Every name of the list, and below it, can be examined. -/
def allStatNames : FsChildren → Bool
  | .nil => true
  | .consMissing _ _ _ => false
  | .cons _ node rest => allStat node && allStatNames rest
end

mutual
/-- In the tree at `path`, the path the walk gives each child is the path of its parent
followed by the separator and the name of the child. -/
def plainPaths (path : String) : FsNode → Bool
  | .file => true
  | .unreadable _ => true
  | .dir names => plainNames path names
/-- The same for the names of the directory at `path`. -/
def plainNames (path : String) : FsChildren → Bool
  | .nil => true
  | .consMissing name _ rest =>
    (Join path name == path ++ "/" ++ name) && plainNames path rest
  | .cons name node rest =>
    (Join path name == path ++ "/" ++ name) && plainPaths (Join path name) node &&
      plainNames path rest
end

mutual
/-- The paths of the tree at `path`: the path itself and those of all its descendants, as
the walk forms them. -/
def treePaths (path : String) : FsNode → List String
  | .file => [path]
  | .unreadable _ => [path]
  | .dir names => path :: namesPaths path names
/-- The paths of all descendants of the directory at `path`. -/
def namesPaths (path : String) : FsChildren → List String
  | .nil => []
  | .consMissing name _ rest => Join path name :: namesPaths path rest
  | .cons name node rest => treePaths (Join path name) node ++ namesPaths path rest
end

/-! ## Example environments -/

/-- One line per entry, the imports in brackets: the shape of the `text` output.  It also
stands in for the marshalled text in the example environments; no statement below depends
on what the three format routines write. -/
def sampleLines (m : ImportMap) : String :=
  String.join (m.map (fun e => e.1 ++ " [" ++ " ".intercalate e.2 ++ "]\n"))

/-- An example environment with `GOPATH=/go`, built from the result of `os.Lstat` on the
start directory, the result of `os.Getwd` and the parse results. -/
def exampleEnv (lstat : Except String FsNode) (getwd : Except String String)
    (parseDir : String → ParseResult) : Env where
  lstat := lstat
  getwd := getwd
  gopathVar := "/go"
  defaultGopath := "/home/u/go"
  parseDir := parseDir
  text := sampleLines
  json := fun m => .ok (sampleLines m)
  yaml := fun m => .ok (sampleLines m)
  lowerTable := id

/-- Parse results of a few directories: `/w/a` has two files, `/w/b` one, `/w/x/../a` is a
different directory that cleans to `/w/a` (`/w/x` being a symbolic link), `/w/bad` has one
file that parsed and one that did not, `pkg` is a relative directory; every other
directory has no Go files. -/
def sampleParse (dir : String) : ParseResult :=
  if dir = "/w/a" then ⟨[[["\"fmt\"", "\"os\""], ["\"fmt\""]]], none⟩
  else if dir = "/w/b" then ⟨[[["\"io\""]]], none⟩
  else if dir = "/w/x/../a" then ⟨[[["\"net\""]]], none⟩
  else if dir = "/w/bad" then ⟨[[["\"fmt\""]]], some "/w/bad/b.go:3:1: expected declaration"⟩
  else if dir = "pkg" then ⟨[[["\"strings\""]]], none⟩
  else ⟨[], none⟩

/-- Working directory `/go/src/app`; the start directory holds one Go file. -/
def envSample : Env :=
  exampleEnv (.ok (.dir (.cons "a.go" .file .nil))) (.ok "/go/src/app") sampleParse

/-- The double quote character, the cutset of the `strings.Trim` call. -/
def doubleQuote : Char := Char.ofNat 34

/-- A directory with one file whose imports are `"fmt"` and, as a raw string literal,
`os` between back quotes. -/
def rawParse (dir : String) : ParseResult :=
  if dir = "/w/raw" then ⟨[[["\"fmt\"", "`os`"]]], none⟩ else ⟨[], none⟩

/-- The environment of `rawParse`. -/
def envRaw : Env :=
  exampleEnv (.ok (.dir (.cons "r.go" .file .nil))) (.ok "/w") rawParse

/-- The program is started with `-d .` in the working directory `/home/vendor/proj`, which
holds one Go file importing `fmt`. -/
def envVendorCwd : Env :=
  exampleEnv (.ok (.dir (.cons "main.go" .file .nil))) (.ok "/home/vendor/proj")
    (fun dir => if dir = "." then ⟨[[["\"fmt\""]]], none⟩ else ⟨[], none⟩)

/-- The tree below `/w/app`: `pkg/a.go` and `vendor/lib/l.go`. -/
def appTree : FsNode :=
  .dir (.cons "pkg" (.dir (.cons "a.go" .file .nil))
    (.cons "vendor" (.dir (.cons "lib" (.dir (.cons "l.go" .file .nil)) .nil)) .nil))

/-- The program is started with `-d /w/app` on `appTree`; both `pkg` and `vendor/lib`
hold a Go file with one import. -/
def envApp : Env :=
  exampleEnv (.ok appTree) (.ok "/home/u")
    (fun dir =>
      if dir = "/w/app/pkg" then ⟨[[["\"fmt\""]]], none⟩
      else if dir = "/w/app/vendor/lib" then ⟨[[["\"ignored\""]]], none⟩
      else ⟨[], none⟩)

/-- The working directory has been removed, so `os.Getwd` fails; the program is started
with `-d ../proj`, a directory with one Go file importing `fmt`. -/
def envNoCwd : Env :=
  exampleEnv (.ok (.dir (.cons "main.go" .file .nil)))
    (.error "getwd: no such file or directory")
    (fun dir => if dir = "../proj" then ⟨[[["\"fmt\""]]], none⟩ else ⟨[], none⟩)

/-- The start directory `nosuchdir` does not exist: `os.Lstat` fails. -/
def envMissingRoot : Env :=
  exampleEnv (.error "lstat nosuchdir: no such file or directory") (.ok "/home/u")
    (fun _ => ⟨[], some "open nosuchdir: no such file or directory"⟩)

/-- The start directory `locked` exists but its names cannot be read. -/
def envUnreadable : Env :=
  exampleEnv (.ok (.unreadable "open locked: permission denied")) (.ok "/home/u")
    (fun _ => ⟨[], some "open locked: permission denied"⟩)

/-- The tree below `/w/app` of `envVendorGone`: the directory `vendor`, in which `lstat`
fails for the name `gone`, and the directory `zpkg`. -/
def goneTree : FsNode :=
  .dir (.cons "vendor"
      (.dir (.consMissing "gone" "lstat /w/app/vendor/gone: permission denied" .nil))
    (.cons "zpkg" (.dir .nil) .nil))

deriving instance DecidableEq for Except

/-- The program is started with `-d /w/app` on `goneTree`. -/
def envVendorGone : Env :=
  exampleEnv (.ok goneTree) (.ok "/home/u") (fun _ => ⟨[], none⟩)

end Imports

namespace Imports

/-! ## Lemmas on the string helpers -/

theorem containsAt_iff (sub s : List Char) : containsAt sub s = true ↔ sub <:+: s := by
  induction s with
  | nil =>
    simp only [containsAt, List.isPrefixOf_iff_prefix, List.prefix_nil, List.infix_nil]
  | cons c cs ih =>
    simp only [containsAt, Bool.or_eq_true, List.isPrefixOf_iff_prefix, ih, List.infix_cons_iff]

theorem Contains_iff (s sub : String) : Contains s sub = true ↔ sub.data <:+: s.data :=
  containsAt_iff sub.data s.data

theorem HasPrefix_iff (s pre : String) : HasPrefix s pre = true ↔ pre.data <+: s.data := by
  unfold HasPrefix
  simp only [Bool.and_eq_true, decide_eq_true_eq, beq_iff_eq]
  constructor
  · rintro ⟨_, h⟩
    exact h ▸ List.take_prefix _ _
  · intro h
    exact ⟨h.length_le, List.prefix_iff_eq_take.mp h |>.symm⟩

theorem TrimPrefix_append (r q : String) : TrimPrefix (r ++ q) r = q := by
  have h : HasPrefix (r ++ q) r = true := by
    rw [HasPrefix_iff]; exact ⟨q.data, by simp⟩
  unfold TrimPrefix
  rw [if_pos h]
  simp

theorem TrimPrefix_of_not_prefix (p r : String) (h : ¬ r.data <+: p.data) :
    TrimPrefix p r = p := by
  unfold TrimPrefix
  rw [if_neg]
  rwa [HasPrefix_iff]

theorem TrimPrefix_empty (p : String) : TrimPrefix p "" = p := by
  simpa using TrimPrefix_append "" p

theorem TrimPrefix_suffix (p r : String) : (TrimPrefix p r).data <:+ p.data := by
  unfold TrimPrefix
  split
  · exact List.drop_suffix _ _
  · exact List.suffix_refl _

theorem Contains_TrimPrefix (p r sub : String) (h : Contains (TrimPrefix p r) sub = true) :
    Contains p sub = true := by
  rw [Contains_iff] at h ⊢
  exact h.trans (TrimPrefix_suffix p r).isInfix

/-! ## Lemmas on `getImports` -/

theorem inspectFile_eq (acc : List String) (file : File) :
    inspectFile acc file = acc ++ file.map (fun value => Trim value "\"") := by
  unfold inspectFile
  induction file generalizing acc with
  | nil => simp
  | cons v vs ih => simp [List.foldl_cons, ih]

theorem inspectPackage_eq (acc : List String) (node : Package) :
    inspectPackage acc node = acc ++ node.flatten.map (fun value => Trim value "\"") := by
  unfold inspectPackage
  induction node generalizing acc with
  | nil => simp
  | cons f fs ih => simp [List.foldl_cons, ih, inspectFile_eq]

theorem inspectNodes_eq (acc : List String) (nodes : List Package) :
    inspectNodes acc nodes = acc ++ nodes.flatten.flatten.map (fun value => Trim value "\"") := by
  unfold inspectNodes
  induction nodes generalizing acc with
  | nil => simp
  | cons n ns ih => simp [List.foldl_cons, ih, inspectPackage_eq]

theorem inspectNodes_nil (env : Env) (dir : String) :
    inspectNodes [] (env.parseDir dir).pkgs = dirImports env dir := by
  simp [inspectNodes_eq, dirImports]

/-- A directory that does not contribute leaves the loop state as it was. -/
theorem loop_skip (env : Env) (gopath dir : String) (rest : List String) (m : ImportMap)
    (h : contributes env dir = false) :
    getImportsLoop env gopath (dir :: rest) m [] = getImportsLoop env gopath rest m [] := by
  unfold contributes at h
  rw [getImportsLoop]
  cases hf : (env.parseDir dir).first with
  | some e => simp
  | none =>
    simp only [inspectNodes_nil]
    have hd : dirImports env dir = [] := by simpa [hf] using h
    simp [hd]

/-- A contributing directory whose absolute path resolves stores its own imports. -/
theorem loop_store (env : Env) (gopath dir k : String) (rest : List String) (m : ImportMap)
    (h : contributes env dir = true) (hk : dirKey env gopath dir = some k) :
    getImportsLoop env gopath (dir :: rest) m [] =
      getImportsLoop env gopath rest (m.set k (dirImports env dir)) [] := by
  unfold contributes at h
  simp only [Bool.and_eq_true, Option.isNone_iff_eq_none, Bool.not_eq_true',
    List.isEmpty_eq_false] at h
  rw [getImportsLoop]
  simp only [h.1, inspectNodes_nil]
  have hl : (dirImports env dir).length > 0 := List.length_pos.mpr h.2
  rw [if_pos hl]
  unfold dirKey at hk
  cases ha : Abs env.getwd dir with
  | error e => simp [ha] at hk
  | ok p =>
    simp only [ha, Option.some.injEq] at hk
    simp [hk]

/-- A contributing directory whose absolute path does not resolve ends the loop. -/
theorem loop_abort (env : Env) (gopath dir e : String) (rest : List String) (m : ImportMap)
    (h : contributes env dir = true) (ha : Abs env.getwd dir = .error e) :
    getImportsLoop env gopath (dir :: rest) m [] = .error ("getting full path: " ++ e) := by
  unfold contributes at h
  simp only [Bool.and_eq_true, Option.isNone_iff_eq_none, Bool.not_eq_true',
    List.isEmpty_eq_false] at h
  rw [getImportsLoop]
  simp only [h.1, inspectNodes_nil]
  have hl : (dirImports env dir).length > 0 := List.length_pos.mpr h.2
  rw [if_pos hl]
  simp [ha]

theorem get_set_self (m : ImportMap) (k : String) (v : List String) :
    (m.set k v).get k = some v := by
  simp [ImportMap.set, ImportMap.get, List.lookup]

theorem get_set_other (m : ImportMap) (k k1 : String) (v : List String) (h : k1 ≠ k) :
    (m.set k v).get k1 = m.get k1 := by
  have hb : (k1 == k) = false := by simpa using h
  simp only [ImportMap.set, ImportMap.get, List.lookup, hb]
  induction m with
  | nil => simp
  | cons e es ih =>
    obtain ⟨a, b⟩ := e
    by_cases hak : a = k
    · subst hak
      have hb2 : (k1 == a) = false := hb
      simp [List.filter_cons, List.lookup, hb2, ih]
    · have : (a != k) = true := by simpa using hak
      simp only [List.filter_cons, this, if_true, List.lookup]
      cases hka : (k1 == a) with
      | true => rfl
      | false => exact ih

/-- The loop removed one directory that does not contribute. -/
theorem loop_remove (env : Env) (gopath D : String) (pre post : List String) (m : ImportMap)
    (h : contributes env D = false) :
    getImportsLoop env gopath (pre ++ D :: post) m [] =
      getImportsLoop env gopath (pre ++ post) m [] := by
  induction pre generalizing m with
  | nil => simpa using loop_skip env gopath D post m h
  | cons d ds ih =>
    simp only [List.cons_append]
    cases hc : contributes env d with
    | false => rw [loop_skip _ _ _ _ _ hc, loop_skip _ _ _ _ _ hc, ih]
    | true =>
      cases ha : Abs env.getwd d with
      | error e => rw [loop_abort _ _ _ _ _ _ hc ha, loop_abort _ _ _ _ _ _ hc ha]
      | ok p =>
        have hk : dirKey env gopath d = some (TrimPrefix p gopath) := by simp [dirKey, ha]
        rw [loop_store _ _ _ _ _ _ hc hk, loop_store _ _ _ _ _ _ hc hk, ih]

/-- When every contributing directory has an absolute path, the loop returns a map, and
the map holds under each key the imports of the last directory contributing under it. -/
theorem loop_result (env : Env) (gopath : String) (dirs : List String) (m : ImportMap)
    (habs : ∀ d ∈ dirs, contributes env d = true → ∃ p, Abs env.getwd d = .ok p) :
    ∃ m1, getImportsLoop env gopath dirs m [] = .ok m1 ∧
      ∀ k, m1.get k =
        match lastWithKey env gopath k dirs with
        | some d => some (dirImports env d)
        | none => m.get k := by
  induction dirs generalizing m with
  | nil => exact ⟨m, by simp [getImportsLoop], fun k => by simp [lastWithKey]⟩
  | cons d ds ih =>
    have habs1 : ∀ x ∈ ds, contributes env x = true → ∃ p, Abs env.getwd x = .ok p :=
      fun x hx => habs x (List.mem_cons_of_mem _ hx)
    cases hc : contributes env d with
    | false =>
      obtain ⟨m1, h1, h2⟩ := ih m habs1
      refine ⟨m1, by rw [loop_skip _ _ _ _ _ hc, h1], fun k => ?_⟩
      rw [h2 k]
      have hk : hasKey env gopath k d = false := by simp [hasKey, hc]
      simp [lastWithKey, List.find?_append, hk]
    | true =>
      obtain ⟨p, hp⟩ := habs d (List.mem_cons_self _ _) hc
      have hk : dirKey env gopath d = some (TrimPrefix p gopath) := by simp [dirKey, hp]
      obtain ⟨m1, h1, h2⟩ := ih (m.set (TrimPrefix p gopath) (dirImports env d)) habs1
      refine ⟨m1, by rw [loop_store _ _ _ _ _ _ hc hk, h1], fun k => ?_⟩
      rw [h2 k]
      simp only [lastWithKey, List.reverse_cons, List.find?_append]
      cases hfind : List.find? (hasKey env gopath k) ds.reverse with
      | some x => simp
      | none =>
        by_cases hkk : TrimPrefix p gopath = k
        · subst hkk
          have : hasKey env gopath (TrimPrefix p gopath) d = true := by simp [hasKey, hc, hk]
          simp [this, get_set_self]
        · have : hasKey env gopath k d = false := by simp [hasKey, hc, hk, hkk]
          simp [this, get_set_other _ _ _ _ (Ne.symm hkk)]

/-! ## Lemmas on the walk -/

theorem walkCallback_nil (s : List String) (path : String) (e : Option String) :
    walkCallback s path none e =
      .panic "invalid memory address or nil pointer dereference" := rfl

theorem walkCallback_file (s : List String) (path : String) (e : Option String) :
    walkCallback s path (some ⟨false⟩) e = .ret s none := by
  simp [walkCallback]

theorem walkCallback_dir (s : List String) (path : String) (e : Option String) :
    walkCallback s path (some ⟨true⟩) e =
      .ret (if Contains path "vendor" = true then s else s ++ [path]) none := by
  cases h : Contains path "vendor" <;> simp [walkCallback, h]

mutual
/-- The walk of `main` either panics or returns no error, having appended only paths
that do not contain the exclusion substring. -/
theorem walk_filter (node : FsNode) (path : String) (s : List String) :
    (∃ m, walk walkCallback path node s = .panic m) ∨
      ∃ l, walk walkCallback path node s = .ret (s ++ l) none ∧
        ∀ d ∈ l, Contains d "vendor" = false := by
  cases node with
  | file => exact Or.inr ⟨[], by simp [walk, walkCallback_file], by simp⟩
  | unreadable e =>
    right
    rw [walk, walkCallback_dir]
    by_cases h : Contains path "vendor" = true
    · exact ⟨[], by simp [h], by simp⟩
    · exact ⟨[path], by simp [h], by simpa using h⟩
  | dir names =>
    rw [walk, walkCallback_dir]
    by_cases h : Contains path "vendor" = true
    · simpa [h] using walkNames_filter names path s
    · rcases walkNames_filter names path (s ++ [path]) with ⟨m, hm⟩ | ⟨l, hl, hv⟩
      · exact Or.inl ⟨m, by simp [h, hm]⟩
      · refine Or.inr ⟨path :: l, by simp [h, hl], ?_⟩
        intro d hd
        rcases List.mem_cons.mp hd with rfl | hd
        · simpa using h
        · exact hv d hd
theorem walkNames_filter (names : FsChildren) (path : String) (s : List String) :
    (∃ m, walkNames walkCallback path names s = .panic m) ∨
      ∃ l, walkNames walkCallback path names s = .ret (s ++ l) none ∧
        ∀ d ∈ l, Contains d "vendor" = false := by
  cases names with
  | nil => exact Or.inr ⟨[], by simp [walkNames], by simp⟩
  | consMissing name e rest =>
    exact Or.inl ⟨"invalid memory address or nil pointer dereference",
      by simp [walkNames, walkCallback_nil]⟩
  | cons name node rest =>
    rw [walkNames]
    rcases walk_filter node (Join path name) s with ⟨m, hm⟩ | ⟨l, hl, hv⟩
    · exact Or.inl ⟨m, by simp [hm]⟩
    · rcases walkNames_filter rest path (s ++ l) with ⟨m, hm⟩ | ⟨l2, hl2, hv2⟩
      · exact Or.inl ⟨m, by simp [hl, hm]⟩
      · refine Or.inr ⟨l ++ l2, by simp [hl, hl2], ?_⟩
        intro d hd
        rcases List.mem_append.mp hd with hd | hd
        · exact hv d hd
        · exact hv2 d hd
end

theorem Contains_append (p q sub : String) (h : Contains p sub = true) :
    Contains (p ++ q) sub = true := by
  rw [Contains_iff] at h ⊢
  rw [String.data_append]
  exact h.trans (List.prefix_append _ _).isInfix

theorem pruningCallback_nil (s : List String) (path : String) (e : Option String) :
    pruningCallback s path none e =
      .panic "invalid memory address or nil pointer dereference" := rfl

theorem pruningCallback_file (s : List String) (path : String) (e : Option String) :
    pruningCallback s path (some ⟨false⟩) e = .ret s none := by
  simp [pruningCallback]

theorem pruningCallback_dir (s : List String) (path : String) (e : Option String) :
    pruningCallback s path (some ⟨true⟩) e =
      if Contains path "vendor" = true then .ret s (some .skipDir)
      else .ret (s ++ [path]) none := by
  cases h : Contains path "vendor" <;> simp [pruningCallback, h]

mutual
/-- Below an excluded path whose tree has plain paths and no failing `lstat`, the walk of
`main` records nothing. -/
theorem walk_excluded (node : FsNode) (path : String) (s : List String)
    (hv : Contains path "vendor" = true) (hp : plainPaths path node = true)
    (hs : allStat node = true) : walk walkCallback path node s = .ret s none := by
  cases node with
  | file => simp [walk, walkCallback_file]
  | unreadable e => simp [walk, walkCallback_dir, hv]
  | dir names =>
    rw [walk, walkCallback_dir]
    simp only [hv, if_true]
    rw [plainPaths] at hp
    rw [allStat] at hs
    exact walkNames_excluded names path s hv hp hs
theorem walkNames_excluded (names : FsChildren) (path : String) (s : List String)
    (hv : Contains path "vendor" = true) (hp : plainNames path names = true)
    (hs : allStatNames names = true) : walkNames walkCallback path names s = .ret s none := by
  cases names with
  | nil => simp [walkNames]
  | consMissing name e rest => simp [allStatNames] at hs
  | cons name node rest =>
    simp only [plainNames, Bool.and_eq_true, beq_iff_eq] at hp
    simp only [allStatNames, Bool.and_eq_true] at hs
    have hv1 : Contains (Join path name) "vendor" = true := by
      rw [hp.1.1, String.append_assoc]
      exact Contains_append _ _ _ hv
    rw [walkNames, walk_excluded node (Join path name) s hv1 hp.1.2 hs.1]
    exact walkNames_excluded rest path s hv hp.2 hs.2
end

mutual
/-- The pruning walk answers an excluded directory with `SkipDir` and otherwise does what
the walk of `main` does. -/
theorem walk_pruning (node : FsNode) (path : String) (s : List String)
    (hp : plainPaths path node = true) (hs : allStat node = true) :
    walk pruningCallback path node s =
      if (node.info.isDir && Contains path "vendor") = true then .ret s (some .skipDir)
      else walk walkCallback path node s := by
  cases node with
  | file => simp [walk, walkCallback_file, pruningCallback_file, FsNode.info]
  | unreadable e =>
    by_cases hv : Contains path "vendor" = true <;>
      simp [walk, walkCallback_dir, pruningCallback_dir, FsNode.info, hv]
  | dir names =>
    rw [plainPaths] at hp
    rw [allStat] at hs
    by_cases hv : Contains path "vendor" = true
    · simp [walk, pruningCallback_dir, FsNode.info, hv]
    · simp [walk, walkCallback_dir, pruningCallback_dir, FsNode.info, hv,
        walkNames_pruning names path (s ++ [path]) hp hs]
theorem walkNames_pruning (names : FsChildren) (path : String) (s : List String)
    (hp : plainNames path names = true) (hs : allStatNames names = true) :
    walkNames pruningCallback path names s = walkNames walkCallback path names s := by
  cases names with
  | nil => simp [walkNames]
  | consMissing name e rest => simp [allStatNames] at hs
  | cons name node rest =>
    simp only [plainNames, Bool.and_eq_true, beq_iff_eq] at hp
    simp only [allStatNames, Bool.and_eq_true] at hs
    rw [walkNames, walkNames, walk_pruning node (Join path name) s hp.1.2 hs.1]
    by_cases hc : (node.info.isDir && Contains (Join path name) "vendor") = true
    · have hd : node.info.isDir = true := (Bool.and_eq_true_iff.mp hc).1
      have hv : Contains (Join path name) "vendor" = true := (Bool.and_eq_true_iff.mp hc).2
      rw [if_pos hc, walk_excluded node (Join path name) s hv hp.1.2 hs.1]
      simp [hd, walkNames_pruning rest path s hp.2 hs.2]
    · rw [if_neg hc]
      cases hr : walk walkCallback (Join path name) node s with
      | panic m => rfl
      | ret s1 e =>
        cases e with
        | none => exact walkNames_pruning rest path s1 hp.2 hs.2
        | some err => simp [walkNames_pruning rest path s1 hp.2 hs.2]
end

mutual
/-- Without a failing `lstat` the walk of `main` does not panic. -/
theorem walk_returns (node : FsNode) (path : String) (s : List String)
    (hs : allStat node = true) : ∃ l, walk walkCallback path node s = .ret (s ++ l) none := by
  rcases walk_filter node path s with ⟨m, hm⟩ | ⟨l, hl, _⟩
  · exfalso
    cases node with
    | file => simp [walk, walkCallback_file] at hm
    | unreadable e => simp [walk, walkCallback_dir] at hm
    | dir names =>
      rw [allStat] at hs
      rw [walk, walkCallback_dir] at hm
      obtain ⟨l, hl⟩ := walkNames_returns names path
        (if Contains path "vendor" = true then s else s ++ [path]) hs
      simp [hl] at hm
  · exact ⟨l, hl⟩
theorem walkNames_returns (names : FsChildren) (path : String) (s : List String)
    (hs : allStatNames names = true) :
    ∃ l, walkNames walkCallback path names s = .ret (s ++ l) none := by
  cases names with
  | nil => exact ⟨[], by simp [walkNames]⟩
  | consMissing name e rest => simp [allStatNames] at hs
  | cons name node rest =>
    simp only [allStatNames, Bool.and_eq_true] at hs
    obtain ⟨l, hl⟩ := walk_returns node (Join path name) s hs.1
    obtain ⟨l2, hl2⟩ := walkNames_returns rest path (s ++ l) hs.2
    exact ⟨l ++ l2, by simp [walkNames, hl, hl2]⟩
end

mutual
/-- With plain paths, every path below an excluded path is excluded. -/
theorem treePaths_excluded (node : FsNode) (path : String)
    (hv : Contains path "vendor" = true) (hp : plainPaths path node = true) :
    ∀ q ∈ treePaths path node, Contains q "vendor" = true := by
  cases node with
  | file => simpa [treePaths] using hv
  | unreadable e => simpa [treePaths] using hv
  | dir names =>
    rw [plainPaths] at hp
    intro q hq
    rw [treePaths] at hq
    rcases List.mem_cons.mp hq with rfl | hq
    · exact hv
    · exact namesPaths_excluded names path hv hp q hq
theorem namesPaths_excluded (names : FsChildren) (path : String)
    (hv : Contains path "vendor" = true) (hp : plainNames path names = true) :
    ∀ q ∈ namesPaths path names, Contains q "vendor" = true := by
  cases names with
  | nil => simp [namesPaths]
  | consMissing name e rest =>
    simp only [plainNames, Bool.and_eq_true, beq_iff_eq] at hp
    intro q hq
    rw [namesPaths] at hq
    rcases List.mem_cons.mp hq with rfl | hq
    · rw [hp.1, String.append_assoc]
      exact Contains_append _ _ _ hv
    · exact namesPaths_excluded rest path hv hp.2 q hq
  | cons name node rest =>
    simp only [plainNames, Bool.and_eq_true, beq_iff_eq] at hp
    have hv1 : Contains (Join path name) "vendor" = true := by
      rw [hp.1.1, String.append_assoc]
      exact Contains_append _ _ _ hv
    intro q hq
    rw [namesPaths] at hq
    rcases List.mem_append.mp hq with hq | hq
    · exact treePaths_excluded node (Join path name) hv1 hp.1.2 q hq
    · exact namesPaths_excluded rest path hv hp.2 q hq
end

/-! ## The claims on `getImports` -/

theorem getImports_eq_loop (env : Env) (dirs : List String) (gopath : String) :
    getImports env dirs gopath = getImportsLoop env gopath dirs [] [] := rfl

theorem contributes_false_of (env : Env) (D : String)
    (h : (env.parseDir D).first ≠ none ∨ (env.parseDir D).pkgs.flatten.flatten = []) :
    contributes env D = false := by
  unfold contributes dirImports
  rcases h with h | h
  · cases hf : (env.parseDir D).first with
    | none => exact absurd hf h
    | some e => simp
  · simp [h]

theorem contributes_true_of (env : Env) (D : String) (hpar : (env.parseDir D).first = none)
    (himp : (env.parseDir D).pkgs.flatten.flatten ≠ []) : contributes env D = true := by
  unfold contributes dirImports
  simp only [hpar, Option.isNone_none, Bool.true_and, Bool.not_eq_true', List.isEmpty_eq_false]
  intro h
  exact himp (List.map_eq_nil_iff.mp h)

/-- C4: a directory whose parse returns an error (whatever packages came with it) or
yields no import declaration is skipped: alone it gives the empty map without an error, and
in any list the result of `getImports` is the result for the list without it. -/
theorem getImports_skips_directory (env : Env) (gopath D : String) (pre post : List String)
    (h : (env.parseDir D).first ≠ none ∨ (env.parseDir D).pkgs.flatten.flatten = []) :
    getImports env [D] gopath = .ok [] ∧
      getImports env (pre ++ D :: post) gopath = getImports env (pre ++ post) gopath := by
  have hc := contributes_false_of env D h
  constructor
  · rw [getImports_eq_loop, loop_skip _ _ _ _ _ hc, getImportsLoop]
  · exact loop_remove env gopath D pre post [] hc

/-- Witness of `getImports_skips_directory`: `/w/bad`, whose parse returns an error
together with a file that parsed, is skipped. -/
theorem getImports_skips_directory_witness :
    (sampleParse "/w/bad").first ≠ none ∧
      getImports envSample (["/w/a"] ++ "/w/bad" :: ["/w/b"]) "/go/src/" =
        getImports envSample (["/w/a"] ++ ["/w/b"]) "/go/src/" :=
  ⟨by decide,
    (getImports_skips_directory envSample "/go/src/" "/w/bad" ["/w/a"] ["/w/b"]
      (Or.inl (by decide))).2⟩

/-- C5: when the contributing directories have pairwise distinct keys, the value stored
under the key of a directory that parses with at least one import is the sequence of the
trimmed path tokens of its own files, in file order then declaration order, duplicates
kept. -/
theorem getImports_value_is_own_imports (env : Env) (gopath D : String) (dirs : List String)
    (habs : ∀ d ∈ dirs, contributes env d = true → (dirKey env gopath d).isSome = true)
    (hdist : dirs.Pairwise (fun a b => contributes env a = true → contributes env b = true →
      dirKey env gopath a ≠ dirKey env gopath b))
    (hD : D ∈ dirs) (hpar : (env.parseDir D).first = none)
    (himp : (env.parseDir D).pkgs.flatten.flatten ≠ []) :
    ∃ m k, getImports env dirs gopath = .ok m ∧ dirKey env gopath D = some k ∧
      m.get k = some ((env.parseDir D).pkgs.flatten.flatten.map (fun v => Trim v "\"")) := by
  have hc := contributes_true_of env D hpar himp
  have habs1 : ∀ d ∈ dirs, contributes env d = true → ∃ p, Abs env.getwd d = .ok p := by
    intro d hd hcd
    have := habs d hd hcd
    unfold dirKey at this
    cases ha : Abs env.getwd d with
    | error e => simp [ha] at this
    | ok p => exact ⟨p, rfl⟩
  obtain ⟨m, hm, hget⟩ := loop_result env gopath dirs [] habs1
  obtain ⟨k, hk⟩ := Option.isSome_iff_exists.mp (habs D hD hc)
  refine ⟨m, k, hm, hk, ?_⟩
  rw [hget k]
  have hDk : hasKey env gopath k D = true := by simp [hasKey, hc, hk]
  cases hl : lastWithKey env gopath k dirs with
  | none =>
    unfold lastWithKey at hl
    rw [List.find?_eq_none] at hl
    exact absurd hDk (hl D (List.mem_reverse.mpr hD))
  | some d =>
    unfold lastWithKey at hl
    have hdk : hasKey env gopath k d = true := List.find?_some hl
    have hd : d ∈ dirs := List.mem_reverse.mp (List.mem_of_find?_eq_some hl)
    simp only [hasKey, Bool.and_eq_true, beq_iff_eq] at hdk
    have hsame : d = D := by
      by_contra hne
      have hsymm : Symmetric (fun a b => contributes env a = true →
          contributes env b = true → dirKey env gopath a ≠ dirKey env gopath b) :=
        fun a b hab hb ha => (hab ha hb).symm
      exact hdist.forall hsymm hd hD hne hdk.1 hc (hdk.2.trans hk.symm)
    subst hsame
    rfl

/-- Witness of `getImports_value_is_own_imports`: `/w/a`, after the skipped `/w/bad`,
gets the imports of its two files, the repeated `fmt` included. -/
theorem getImports_value_is_own_imports_witness :
    getImports envSample ["/w/bad", "/w/a", "/w/b"] "/go/src/" =
        .ok [("/w/b", ["io"]), ("/w/a", ["fmt", "os", "fmt"])] ∧
      ∃ m k, getImports envSample ["/w/bad", "/w/a", "/w/b"] "/go/src/" = .ok m ∧
        dirKey envSample "/go/src/" "/w/a" = some k ∧
        m.get k = some ((envSample.parseDir "/w/a").pkgs.flatten.flatten.map
          (fun v => Trim v "\"")) :=
  ⟨by decide,
    getImports_value_is_own_imports envSample "/go/src/" "/w/a" ["/w/bad", "/w/a", "/w/b"]
      (by decide) (by decide) (by decide) (by decide) (by decide)⟩

/-- C9: when two directories with imports have the same key and no directory after the
later one contributes under that key, the map holds under the key exactly the import list
of the later one. -/
theorem getImports_later_overwrites (env : Env) (gopath D1 D2 k : String)
    (a b c : List String)
    (habs : ∀ d ∈ a ++ D1 :: (b ++ D2 :: c), contributes env d = true →
      (dirKey env gopath d).isSome = true)
    (_h1 : contributes env D1 = true) (h2 : contributes env D2 = true)
    (_hk1 : dirKey env gopath D1 = some k) (hk2 : dirKey env gopath D2 = some k)
    (hlast : ∀ d ∈ c, contributes env d = true → dirKey env gopath d ≠ some k) :
    ∃ m, getImports env (a ++ D1 :: (b ++ D2 :: c)) gopath = .ok m ∧
      m.get k = some (dirImports env D2) := by
  have habs1 : ∀ d ∈ a ++ D1 :: (b ++ D2 :: c), contributes env d = true →
      ∃ p, Abs env.getwd d = .ok p := by
    intro d hd hcd
    have := habs d hd hcd
    unfold dirKey at this
    cases ha : Abs env.getwd d with
    | error e => simp [ha] at this
    | ok p => exact ⟨p, rfl⟩
  obtain ⟨m, hm, hget⟩ := loop_result env gopath _ [] habs1
  refine ⟨m, hm, ?_⟩
  rw [hget k]
  have hc : List.find? (hasKey env gopath k) c.reverse = none := by
    rw [List.find?_eq_none]
    intro d hd
    have hdc := List.mem_reverse.mp hd
    simp only [hasKey, Bool.and_eq_true, beq_iff_eq, not_and]
    exact fun hcd => hlast d hdc hcd
  have hD2 : hasKey env gopath k D2 = true := by simp [hasKey, h2, hk2]
  have : lastWithKey env gopath k (a ++ D1 :: (b ++ D2 :: c)) = some D2 := by
    simp [lastWithKey, List.find?_append, hc, hD2]
  rw [this]

/-- Witness of `getImports_later_overwrites`: `/w/a` and `/w/x/../a` both have the key
`/w/a`; the map holds the imports of the second. -/
theorem getImports_later_overwrites_witness :
    dirKey envSample "/go/src/" "/w/a" = some "/w/a" ∧
      dirKey envSample "/go/src/" "/w/x/../a" = some "/w/a" ∧
      dirImports envSample "/w/x/../a" = ["net"] ∧
      ∃ m, getImports envSample ([] ++ "/w/a" :: (["/w/b"] ++ "/w/x/../a" :: ["/w/empty"]))
          "/go/src/" = .ok m ∧
        m.get "/w/a" = some (dirImports envSample "/w/x/../a") :=
  ⟨by decide, by decide, by decide,
    getImports_later_overwrites envSample "/go/src/" "/w/a" "/w/x/../a" "/w/a"
      [] ["/w/b"] ["/w/empty"] (by decide) (by decide) (by decide) (by decide) (by decide)
      (by decide)⟩

/-- C7: the key `getImports` stores for a directory with absolute path `p` is `p` without
the root prefix `r` when `p` begins with `r`, and `p` otherwise; trimming `r ++ q` by `r`
gives `q`, and trimming by the empty prefix changes nothing. -/
theorem getImports_key_normalized (env : Env) (dir p r : String)
    (hp : Abs env.getwd dir = .ok p) (hc : contributes env dir = true) :
    (∃ key, getImports env [dir] r = .ok [(key, dirImports env dir)] ∧
      (∀ q, p = r ++ q → key = q) ∧ ((¬ ∃ q, p = r ++ q) → key = p)) ∧
    (∀ q, TrimPrefix (r ++ q) r = q) ∧ TrimPrefix p "" = p := by
  refine ⟨⟨TrimPrefix p r, ?_, ?_, ?_⟩, TrimPrefix_append r, TrimPrefix_empty p⟩
  · have hk : dirKey env r dir = some (TrimPrefix p r) := by simp [dirKey, hp]
    rw [getImports_eq_loop, loop_store _ _ _ _ _ _ hc hk, getImportsLoop]
    rfl
  · rintro q rfl
    exact TrimPrefix_append r q
  · intro h
    apply TrimPrefix_of_not_prefix
    rintro ⟨t, ht⟩
    exact h ⟨⟨t⟩, by
      apply String.ext
      rw [String.data_append, ← ht]⟩

/-- Witness of `getImports_key_normalized`: in the working directory `/go/src/app` the
relative directory `pkg` gets the key `app/pkg`. -/
theorem getImports_key_normalized_witness :
    Abs envSample.getwd "pkg" = .ok "/go/src/app/pkg" ∧
      getImports envSample ["pkg"] "/go/src/" = .ok [("app/pkg", dirImports envSample "pkg")] :=
  ⟨by decide, by
    obtain ⟨⟨key, hget, hpre, _⟩, _, _⟩ :=
      getImports_key_normalized envSample "pkg" "/go/src/app/pkg" "/go/src/"
        (by decide) (by decide)
    have hkey : key = "app/pkg" := hpre "app/pkg" (by decide)
    rw [hkey] at hget
    exact hget⟩

/-! ## The claims on the walk and on `main` -/

theorem walkDirs_cases (env : Env) (dir : String) :
    (∃ m, walkDirs env dir = .panic m) ∨
      ∃ dirs, walkDirs env dir = .ret dirs none ∧ ∀ d ∈ dirs, Contains d "vendor" = false := by
  unfold walkDirs Walk
  cases hl : env.lstat with
  | error e =>
    exact Or.inl ⟨"invalid memory address or nil pointer dereference",
      by simp only [walkCallback_nil]⟩
  | ok node =>
    rcases walk_filter node dir [] with ⟨m, hm⟩ | ⟨l, hl2, hv⟩
    · exact Or.inl ⟨m, by simp only [hm]⟩
    · rw [List.nil_append] at hl2
      exact Or.inr ⟨l, by simp only [hl2], hv⟩

theorem keys_set (m : ImportMap) (k k1 : String) (v : List String)
    (h : k1 ∈ (m.set k v).keys) : k1 = k ∨ k1 ∈ m.keys := by
  simp only [ImportMap.keys, ImportMap.set, List.map_cons, List.mem_cons, List.mem_map,
    List.mem_filter] at h
  rcases h with h | ⟨e, ⟨he, _⟩, rfl⟩
  · exact Or.inl h
  · exact Or.inr (List.mem_map.mpr ⟨e, he, rfl⟩)

/-- Every key of the map the loop returns was in the map before or is the trimmed absolute
path of one of the directories. -/
theorem loop_keys (env : Env) (gopath : String) (dirs : List String) (m m1 : ImportMap)
    (h : getImportsLoop env gopath dirs m [] = .ok m1) :
    ∀ k ∈ m1.keys, k ∈ m.keys ∨
      ∃ d ∈ dirs, ∃ p, Abs env.getwd d = .ok p ∧ k = TrimPrefix p gopath := by
  induction dirs generalizing m with
  | nil =>
    simp only [getImportsLoop, Except.ok.injEq] at h
    subst h
    exact fun k hk => Or.inl hk
  | cons d ds ih =>
    cases hc : contributes env d with
    | false =>
      rw [loop_skip _ _ _ _ _ hc] at h
      intro k hk
      rcases ih m h k hk with h1 | ⟨x, hx, p, hp, hkp⟩
      · exact Or.inl h1
      · exact Or.inr ⟨x, List.mem_cons_of_mem _ hx, p, hp, hkp⟩
    | true =>
      cases ha : Abs env.getwd d with
      | error e =>
        rw [loop_abort _ _ _ _ _ _ hc ha] at h
        exact absurd h (by simp)
      | ok p =>
        have hk : dirKey env gopath d = some (TrimPrefix p gopath) := by simp [dirKey, ha]
        rw [loop_store _ _ _ _ _ _ hc hk] at h
        intro k hkm
        rcases ih _ h k hkm with h1 | ⟨x, hx, q, hq, hkq⟩
        · rcases keys_set _ _ _ _ h1 with rfl | h2
          · exact Or.inr ⟨d, List.mem_cons_self _ _, p, ha, rfl⟩
          · exact Or.inl h2
        · exact Or.inr ⟨x, List.mem_cons_of_mem _ hx, q, hq, hkq⟩

/-! ## Lemmas on `strings.Trim` with the double quote as cutset -/

theorem quote_data : ("\"" : String).data = [doubleQuote] := by decide

theorem dropWhile_quote (l : List Char) :
    ∃ n, l = List.replicate n doubleQuote ++ l.dropWhile (fun c => [doubleQuote].contains c) ∧
      (l.dropWhile (fun c => [doubleQuote].contains c)).head? ≠ some doubleQuote := by
  induction l with
  | nil => exact ⟨0, by simp⟩
  | cons c cs ih =>
    by_cases hc : c = doubleQuote
    · obtain ⟨n, hn, hh⟩ := ih
      refine ⟨n + 1, ?_, ?_⟩
      · subst hc
        simp only [List.dropWhile_cons, List.contains_cons, beq_self_eq_true, Bool.true_or,
          if_true, List.replicate_succ, List.cons_append]
        exact congrArg _ hn
      · subst hc
        simpa [List.dropWhile_cons] using hh
    · refine ⟨0, ?_, ?_⟩
      · simp [List.dropWhile_cons, hc]
      · simp [List.dropWhile_cons, hc]

theorem Trim_data (value : String) :
    (Trim value "\"").data = trimLeft [doubleQuote] (trimRight [doubleQuote] value.data) := rfl

/-- Trimming removes a run of double quotes at each end and leaves a string that neither
begins nor ends with a double quote. -/
theorem Trim_quote_spec (value : String) :
    ∃ n m, value.data = List.replicate n doubleQuote ++ (Trim value "\"").data ++
        List.replicate m doubleQuote ∧
      (Trim value "\"").data.head? ≠ some doubleQuote ∧
      (Trim value "\"").data.getLast? ≠ some doubleQuote := by
  obtain ⟨m, hm, hmh⟩ := dropWhile_quote value.data.reverse
  obtain ⟨n, hn, hnh⟩ := dropWhile_quote
    (value.data.reverse.dropWhile (fun c => [doubleQuote].contains c)).reverse
  have hT : (Trim value "\"").data =
      ((value.data.reverse.dropWhile (fun c => [doubleQuote].contains c)).reverse).dropWhile
        (fun c => [doubleQuote].contains c) := Trim_data value
  refine ⟨n, m, ?_, ?_, ?_⟩
  · rw [hT, ← hn]
    have := congrArg List.reverse hm
    simpa using this
  · rw [hT]; exact hnh
  · rw [hT]
    intro hlast
    have ht_ne : ((value.data.reverse.dropWhile (fun c => [doubleQuote].contains c)).reverse).dropWhile
        (fun c => [doubleQuote].contains c) ≠ [] := by
      intro h0
      rw [h0] at hlast
      simp at hlast
    have hlast2 : (value.data.reverse.dropWhile
        (fun c => [doubleQuote].contains c)).reverse.getLast? = some doubleQuote := by
      rw [hn, List.getLast?_append_of_ne_nil _ ht_ne]
      exact hlast
    apply hmh
    simpa using hlast2

theorem trimLeft_of_head (l : List Char) (h : l.head? ≠ some doubleQuote) :
    trimLeft [doubleQuote] l = l := by
  unfold trimLeft
  cases l with
  | nil => rfl
  | cons c cs =>
    have hc : c ≠ doubleQuote := by simpa using h
    simp [List.dropWhile_cons, hc]

theorem trimLeft_quote_cons (l : List Char) :
    trimLeft [doubleQuote] (doubleQuote :: l) = trimLeft [doubleQuote] l := by
  simp [trimLeft, List.dropWhile_cons]

theorem trimRight_of_last (l : List Char) (h : l.getLast? ≠ some doubleQuote) :
    trimRight [doubleQuote] l = l := by
  have h2 : l.reverse.head? ≠ some doubleQuote := by simpa using h
  have := trimLeft_of_head l.reverse h2
  unfold trimLeft at this
  unfold trimRight
  rw [this, List.reverse_reverse]

theorem trimRight_append_quote (l : List Char) :
    trimRight [doubleQuote] (l ++ [doubleQuote]) = trimRight [doubleQuote] l := by
  simp [trimRight, List.dropWhile_cons]

/-- A token in double quotes whose content neither begins nor ends with a double quote is
trimmed to its content. -/
theorem Trim_quoted (p : String) (h1 : p.data.head? ≠ some doubleQuote)
    (h2 : p.data.getLast? ≠ some doubleQuote) : Trim ("\"" ++ p ++ "\"") "\"" = p := by
  apply String.ext
  have hd : ("\"" ++ p ++ "\"").data = (doubleQuote :: p.data) ++ [doubleQuote] := by
    simp only [String.data_append]
    rfl
  rw [Trim_data, hd, trimRight_append_quote]
  cases hp : p.data with
  | nil =>
    have : trimRight [doubleQuote] [doubleQuote] = [] := by decide
    rw [this]
    rfl
  | cons x xs =>
    have hl : (doubleQuote :: x :: xs).getLast? ≠ some doubleQuote := by
      rw [hp] at h2
      simpa [List.getLast?_cons_cons] using h2
    rw [trimRight_of_last _ hl, trimLeft_quote_cons]
    rw [hp] at h1
    exact trimLeft_of_head _ h1

/-! ## The claims, one theorem each (the claims on `getImports` are above) -/

/-- C1 as stated fails: started with `-d .` in the working directory `/home/vendor/proj`,
the walk records `.`, which does not contain the exclusion substring, and the key made
from its absolute path contains it. -/
theorem vendor_key_from_working_directory :
    walkDirs envVendorCwd "." = .ret ["."] none ∧
      getImports envVendorCwd ["."] (srcDir envVendorCwd) =
        .ok [("/home/vendor/proj", ["fmt"])] ∧
      Contains "/home/vendor/proj" "vendor" = true := by
  decide

/-- C1, amended: in every run the list the walk returns holds no path that contains the
exclusion substring, because the filter tests the path the walk reports; and in a run
where the absolute path of a recorded directory contains the substring only if that path
does, no key of the result map of `getImports` contains it. -/
theorem result_keys_not_excluded (env : Env) (dir : String) :
    (∀ dirs e, walkDirs env dir = .ret dirs e → ∀ d ∈ dirs, Contains d "vendor" = false) ∧
    (∀ dirs gopath m, walkDirs env dir = .ret dirs none →
      getImports env dirs gopath = .ok m →
      (∀ d ∈ dirs, ∀ p, Abs env.getwd d = .ok p → Contains p "vendor" = true →
        Contains d "vendor" = true) →
      ∀ k ∈ m.keys, Contains k "vendor" = false) := by
  have hdirs : ∀ dirs e, walkDirs env dir = .ret dirs e →
      ∀ d ∈ dirs, Contains d "vendor" = false := by
    intro dirs e hwalk
    rcases walkDirs_cases env dir with ⟨msg, hm⟩ | ⟨l, hl, hv⟩
    · rw [hm] at hwalk
      exact absurd hwalk (by simp)
    · rw [hl] at hwalk
      simp only [Ret.ret.injEq] at hwalk
      obtain ⟨hd, _⟩ := hwalk
      subst hd
      exact hv
  refine ⟨hdirs, fun dirs gopath m hwalk hget habs k hk => ?_⟩
  rcases loop_keys env gopath dirs [] m hget k hk with h0 | ⟨d, hd, p, hp, rfl⟩
  · simp [ImportMap.keys] at h0
  · cases hc : Contains (TrimPrefix p gopath) "vendor" with
    | false => rfl
    | true =>
      have h1 := habs d hd p hp (Contains_TrimPrefix p gopath "vendor" hc)
      rw [hdirs dirs none hwalk d hd] at h1
      exact absurd h1 (by simp)

/-- Witness of `result_keys_not_excluded`: started with `-d /w/app`, the walk records
`/w/app` and `/w/app/pkg` but not `/w/app/vendor` and `/w/app/vendor/lib`, and the only
key is `/w/app/pkg`. -/
theorem result_keys_not_excluded_witness :
    walkDirs envApp "/w/app" = .ret ["/w/app", "/w/app/pkg"] none ∧
      getImports envApp ["/w/app", "/w/app/pkg"] (srcDir envApp) =
        .ok [("/w/app/pkg", ["fmt"])] ∧
      Contains "/w/app" "vendor" = false ∧
      Contains "/w/app/pkg" "vendor" = false :=
  ⟨by decide, by decide,
    (result_keys_not_excluded envApp "/w/app").1 ["/w/app", "/w/app/pkg"] none (by decide)
      "/w/app" (by decide),
    (result_keys_not_excluded envApp "/w/app").2 ["/w/app", "/w/app/pkg"] (srcDir envApp)
      [("/w/app/pkg", ["fmt"])] (by decide) (by decide) (by
        intro d hd p hp hc
        simp only [List.mem_cons, List.mem_singleton, List.not_mem_nil, or_false] at hd
        rcases hd with rfl | rfl
        · have h : Abs envApp.getwd "/w/app" = .ok "/w/app" := by decide
          rw [h] at hp
          cases hp
          exact hc
        · have h : Abs envApp.getwd "/w/app/pkg" = .ok "/w/app/pkg" := by decide
          rw [h] at hp
          cases hp
          exact hc) "/w/app/pkg" (by decide)⟩

/-- C2, the code at a failing input: the working directory is gone and the program is
started with `-d ../proj`.  `getImports` returns the wrapped error, and `main`, which does
not look at it, returns normally without output instead of ending in the fatal state. -/
theorem abs_failure_exits_normally :
    walkDirs envNoCwd "../proj" = .ret ["../proj"] none ∧
      getImports envNoCwd ["../proj"] (srcDir envNoCwd) =
        .error "getting full path: getwd: no such file or directory" ∧
      main envNoCwd "../proj" "text" = .done "" := by
  decide

/-- C3, the code at failing inputs: the walk of `main` never returns an error, whatever
the traversal reports.  For a start directory that does not exist the callback panics on
the nil file info; for one whose names cannot be read the callback returns nil, the
directory is recorded and `main` goes on to `getImports`. -/
theorem walk_error_never_fatal :
    (∀ (env : Env) (dir : String),
      (∃ msg, walkDirs env dir = .panic msg) ∨ ∃ dirs, walkDirs env dir = .ret dirs none) ∧
    main envMissingRoot "nosuchdir" "text" =
      .panic "invalid memory address or nil pointer dereference" ∧
    walkDirs envUnreadable "locked" = .ret ["locked"] none ∧
    main envUnreadable "locked" "text" = .done "" := by
  refine ⟨fun env dir => ?_, by decide, by decide, by decide⟩
  rcases walkDirs_cases env dir with h | ⟨l, hl, _⟩
  · exact Or.inl h
  · exact Or.inr ⟨l, hl⟩

/-- C6, the code at a failing input: a file whose imports are `"fmt"` and, written as a
raw string literal, `os` between back quotes.  The trim removes the double quotes of the
first and leaves the back quotes of the second, which is stored with them instead of as
`os`. -/
theorem raw_literal_keeps_back_quotes :
    getImports envRaw ["/w/raw"] (srcDir envRaw) = .ok [("/w/raw", ["fmt", "`os`"])] ∧
      inspectFile [] ["\"os\""] = ["os"] ∧
      inspectFile [] ["`os`"] = ["`os`"] ∧
      inspectFile [] ["`os`"] ≠ ["os"] := by
  decide

/-- C8: `print` chooses the format by the lower-cased selector only: selectors with the
same lower-cased form give the same result, `TEXT`, `Json` and `YAML` select the text,
JSON and YAML output, and a selector whose lower-cased form is none of `text`, `json`,
`yaml` writes nothing and reports no error. -/
theorem print_by_lowercased_selector (env : Env) (imports : ImportMap) (out1 out2 : String) :
    (ToLower env.lowerTable out1 = ToLower env.lowerTable out2 →
      print env imports out1 = print env imports out2) ∧
    print env imports "TEXT" = .done (env.text imports) ∧
    print env imports "text" = .done (env.text imports) ∧
    print env imports "JSON" = print env imports "json" ∧
    print env imports "Json" = print env imports "json" ∧
    print env imports "YAML" = print env imports "yaml" ∧
    (ToLower env.lowerTable out1 ≠ "text" → ToLower env.lowerTable out1 ≠ "json" →
      ToLower env.lowerTable out1 ≠ "yaml" → print env imports out1 = .done "") := by
  refine ⟨fun h => ?_, rfl, rfl, rfl, rfl, rfl, fun ht hj hy => ?_⟩
  · simp only [print, h]
  · simp only [print, if_neg ht, if_neg hj, if_neg hy]

/-- Witness of `print_by_lowercased_selector`: `-o BOGUS` and `-o bogus` write nothing. -/
theorem print_by_lowercased_selector_witness :
    print envSample [("/w/a", ["fmt"])] "BOGUS" = print envSample [("/w/a", ["fmt"])] "bogus" ∧
      print envSample [("/w/a", ["fmt"])] "BOGUS" = .done "" :=
  ⟨(print_by_lowercased_selector envSample [("/w/a", ["fmt"])] "BOGUS" "bogus").1 (by decide),
    (print_by_lowercased_selector envSample [("/w/a", ["fmt"])] "BOGUS" "bogus").2.2.2.2.2.2
      (by decide) (by decide) (by decide)⟩

/-- C10 as stated fails: in a tree with plain paths where `lstat` fails for a name below
the excluded directory `vendor`, the walk of `main`, which descends into `vendor`, panics
there, while a walk that skips excluded subtrees records `/w/app` and `/w/app/zpkg`. -/
theorem filter_differs_from_pruning_on_failed_lstat :
    plainPaths "/w/app" goneTree = true ∧
      walkDirs envVendorGone "/w/app" =
        .panic "invalid memory address or nil pointer dereference" ∧
      Walk envVendorGone.lstat "/w/app" pruningCallback [] =
        .ret ["/w/app", "/w/app/zpkg"] none := by
  decide

/-- C10, amended: in a tree with plain paths every path at or below an excluded path is
excluded; and when moreover `lstat` fails for no name of the tree, the walk of `main`
returns the directory list that a walk skipping every excluded subtree returns. -/
theorem filter_equals_pruning (env : Env) (root p : String) (node sub : FsNode)
    (henv : env.lstat = .ok node) (hstat : allStat node = true)
    (hplain : plainPaths root node = true) (hsub : plainPaths p sub = true)
    (hv : Contains p "vendor" = true) :
    (∀ q ∈ treePaths p sub, Contains q "vendor" = true) ∧
      ∃ dirs, walkDirs env root = .ret dirs none ∧
        Walk (.ok node) root pruningCallback [] = .ret dirs none := by
  refine ⟨treePaths_excluded sub p hv hsub, ?_⟩
  unfold walkDirs Walk
  rw [henv]
  simp only [walk_pruning node root [] hplain hstat]
  by_cases hc : (node.info.isDir && Contains root "vendor") = true
  · have hr : Contains root "vendor" = true := (Bool.and_eq_true_iff.mp hc).2
    rw [if_pos hc, walk_excluded node root [] hr hplain hstat]
    exact ⟨[], rfl, rfl⟩
  · obtain ⟨l, hl⟩ := walk_returns node root [] hstat
    rw [List.nil_append] at hl
    rw [if_neg hc, hl]
    exact ⟨l, rfl, rfl⟩

/-- Witness of `filter_equals_pruning`: on `appTree` both walks record `/w/app` and
`/w/app/pkg`, and the paths at and below `/w/app/vendor` are excluded. -/
theorem filter_equals_pruning_witness :
    Contains "/w/app/vendor/lib/l.go" "vendor" = true ∧
      ∃ dirs, walkDirs envApp "/w/app" = .ret dirs none ∧
        Walk (.ok appTree) "/w/app" pruningCallback [] = .ret dirs none :=
  ⟨(filter_equals_pruning envApp "/w/app" "/w/app/vendor" appTree
      (.dir (.cons "lib" (.dir (.cons "l.go" .file .nil)) .nil))
      rfl (by decide) (by decide) (by decide) (by decide)).1 "/w/app/vendor/lib/l.go"
      (by decide),
    (filter_equals_pruning envApp "/w/app" "/w/app/vendor" appTree
      (.dir (.cons "lib" (.dir (.cons "l.go" .file .nil)) .nil))
      rfl (by decide) (by decide) (by decide) (by decide)).2⟩

end Imports
